import Mathlib

/-!
Verification development for the `next-trading-widget` repository.

The in-scope core of the repository is embedded shallowly:
* the indicator engine (`src/features/trading/utils/indicators.ts`):
  `calculateMA`, `calculateEMA`, `calculateRSI`, `calculateIndicator`;
* the streaming reconciler (the `setData` updater in
  `src/features/trading/hooks/useBinanceData.ts`);
* symbol validation (`validateSymbol` in
  `src/features/trading/services/binance.ts`);
* the per-interval limit table (`src/features/trading/constants.ts`) and
  the limit actually passed to the historical fetch;
* the control flow of `performFetch` up to its first network request.

JavaScript numbers are modelled as rationals (`ℚ`), candle times as
integers (`ℤ`); JavaScript array indexing that the indicator guards keep
in bounds is modelled with `List.getD` (the separate index-trace
definitions at the end account for the exact integer indices the source
loops read, including the out-of-bounds read at period = 0).
-/

/-- A normalized candle (`BinanceKline` in
`src/features/trading/types/binance.ts`): epoch-second time plus OHLCV
numbers. -/
structure Kline where
  time : ℤ
  «open» : ℚ
  high : ℚ
  low : ℚ
  close : ℚ
  volume : ℚ
  deriving DecidableEq, Repr

instance : Inhabited Kline := ⟨⟨0, 0, 0, 0, 0, 0⟩⟩

/-- One output point of an indicator (`IndicatorDataPoint`). -/
structure IndicatorDataPoint where
  time : ℤ
  value : ℚ
  deriving DecidableEq, Repr

instance : Inhabited IndicatorDataPoint := ⟨⟨0, 0⟩⟩

/-- `calculateMA` (indicators.ts lines 11–33).  The source guards
`data.length < period`, then for `i = period-1 … length-1` sums
`data[j][priceKey]` for `j = i-period+1 … i` and emits
`{time: data[i].time, value: sum/period}`.  With `k := i - (period-1)`,
the window summed is `(data.drop k).take period`. -/
def calculateMA (data : List Kline) (period : ℕ)
    (priceKey : Kline → ℚ := Kline.close) : List IndicatorDataPoint :=
  if data.length < period then []
  else (List.range (data.length + 1 - period)).map (fun k =>
    { time := (data.getD (k + period - 1) default).time
      value := (((data.drop k).take period).map priceKey).sum / period })

/-- The tail loop of `calculateEMA` (indicators.ts lines 60–66): for each
remaining candle, `ema = (close - ema) * multiplier + ema` and a point is
pushed with the candle's time. -/
def emaLoop (m : ℚ) (priceKey : Kline → ℚ) :
    List Kline → ℚ → List IndicatorDataPoint
  | [], _ => []
  | k :: ks, ema =>
    let e := (priceKey k - ema) * m + ema
    ⟨k.time, e⟩ :: emaLoop m priceKey ks e

/-- `calculateEMA` (indicators.ts lines 38–69): guard
`data.length < period`; seed EMA = simple average of the first `period`
prices, emitted at `data[period-1].time`; then the recurrence of
`emaLoop` over the remaining candles. -/
def calculateEMA (data : List Kline) (period : ℕ)
    (priceKey : Kline → ℚ := Kline.close) : List IndicatorDataPoint :=
  if data.length < period then []
  else
    let m : ℚ := 2 / (period + 1)
    let seed : ℚ := ((data.take period).map priceKey).sum / period
    ⟨(data.getD (period - 1) default).time, seed⟩ ::
      emaLoop m priceKey (data.drop period) seed

/-- The `changes` array of `calculateRSI` (indicators.ts lines 81–83):
close-to-close deltas `data[i].close - data[i-1].close`. -/
def changesOf : List Kline → List ℚ
  | a :: b :: rest => (b.close - a.close) :: changesOf (b :: rest)
  | _ => []

/-- Seed accumulation of gains (indicators.ts lines 89–95): a change
contributes to the gain sum exactly when it is `> 0`. -/
def seedGain (cs : List ℚ) : ℚ :=
  (cs.map (fun c => if 0 < c then c else 0)).sum

/-- Seed accumulation of losses (indicators.ts lines 89–95): a change
that is not `> 0` contributes its absolute value to the loss sum. -/
def seedLoss (cs : List ℚ) : ℚ :=
  (cs.map (fun c => if 0 < c then 0 else |c|)).sum

/-- RSI value from smoothed gain/loss (indicators.ts lines 101–113 and
124–136): `100` when `avgLoss = 0`, else `100 - 100/(1 + avgGain/avgLoss)`. -/
def rsiValue (g l : ℚ) : ℚ :=
  if l = 0 then 100 else 100 - 100 / (1 + g / l)

/-- Wilder-smoothing loop of `calculateRSI` (indicators.ts lines
116–137), one step per remaining change paired with the time of the
candle it belongs to (`data[i+1].time`). -/
def rsiLoop (p : ℚ) : List (ℚ × ℤ) → ℚ → ℚ → List IndicatorDataPoint
  | [], _, _ => []
  | (c, t) :: rest, g, l =>
    let gain := if 0 < c then c else 0
    let loss := if c < 0 then |c| else 0
    let g' := (g * (p - 1) + gain) / p
    let l' := (l * (p - 1) + loss) / p
    ⟨t, rsiValue g' l'⟩ :: rsiLoop p rest g' l'

/-- `calculateRSI` (indicators.ts lines 74–140): guard
`data.length < period + 1`; seed averages over the first `period`
changes; first point at `data[period].time`; then Wilder smoothing over
`changes[period…]`, each point at `data[i+1].time`. -/
def calculateRSI (data : List Kline) (period : ℕ) : List IndicatorDataPoint :=
  if data.length < period + 1 then []
  else
    let cs := changesOf data
    let g := seedGain (cs.take period) / period
    let l := seedLoss (cs.take period) / period
    ⟨(data.getD period default).time, rsiValue g l⟩ ::
      rsiLoop period ((cs.drop period).zip ((data.drop (period + 1)).map Kline.time)) g l

/-- The indicator-kind vocabulary (`IndicatorType` in
`src/features/trading/types/indicators.ts`). -/
inductive IndicatorType where
  | MA | EMA | RSI | MACD | BB
  deriving DecidableEq, Repr

/-- The part of an indicator config that `calculateIndicator` consumes:
its kind and its period. -/
structure IndicatorConfig where
  type : IndicatorType
  period : ℕ
  deriving DecidableEq, Repr

/-- `calculateIndicator` (indicators.ts lines 145–159): dispatch on
`config.type`; the RSI arm uses `config.period || 14`, so a falsy period
(0) falls back to 14; all unrecognized kinds return the empty series. -/
def calculateIndicator (data : List Kline) (config : IndicatorConfig) :
    List IndicatorDataPoint :=
  match config.type with
  | .MA => calculateMA data config.period Kline.close
  | .EMA => calculateEMA data config.period Kline.close
  | .RSI => calculateRSI data (if config.period = 0 then 14 else config.period)
  | _ => []

/-- JavaScript `arr.slice(-m)` (useBinanceData.ts line 230): for `m ≥ 1`
the last `min m (length)` elements; `slice(-0)` is `slice(0)`, the whole
array. -/
def jsSliceLast (l : List Kline) (m : ℕ) : List Kline :=
  if m = 0 then l else l.drop (l.length - m)

/-- The streaming reconciler: the `setData` updater installed by
`useBinanceData` (useBinanceData.ts lines 220–231).  If the series is
non-empty and its last element has the same `time` as the inbound candle,
the last element is replaced; otherwise the candle is appended and the
result is truncated with `slice(-limit)`. -/
def reconcileKline (prevData : List Kline) (newKline : Kline) (limit : ℕ) :
    List Kline :=
  if prevData.getLast?.map Kline.time = some newKline.time then
    prevData.dropLast ++ [newKline]
  else
    jsSliceLast (prevData ++ [newKline]) limit

/-- The `"USDT"` suffix of the symbol regex, as characters. -/
def usdtSuffix : List Char := ['U', 'S', 'D', 'T']

/-- One character of the `[A-Z]` class. -/
def isUpperAZ (c : Char) : Bool :=
  decide ('A' ≤ c) && decide (c ≤ 'Z')

/-- Acceptance of the anchored regex `/^[A-Z]{2,10}USDT$/` (binance.ts
line 197).  Because the pattern is anchored on both sides and the suffix
has fixed length 4, a string matches exactly when its length is in
`[6, 14]`, its last four characters are `USDT` and the rest are in
`[A-Z]` (`symbolPattern_iff_accept` below proves this executable matcher
equivalent to the declarative pattern). -/
def symbolRegexAccept (cs : List Char) : Bool :=
  decide (6 ≤ cs.length) && decide (cs.length ≤ 14) &&
    decide (cs.drop (cs.length - 4) = usdtSuffix) &&
    (cs.take (cs.length - 4)).all isUpperAZ

/-- JavaScript `s.toUpperCase()` restricted to per-character ASCII
uppercasing, as a character list. -/
def jsToUpper (s : String) : List Char :=
  s.data.map Char.toUpper

/-- `validateSymbol` (binance.ts lines 196–198):
`/^[A-Z]{2,10}USDT$/.test(symbol.toUpperCase())`. -/
def validateSymbol (symbol : String) : Bool :=
  symbolRegexAccept (jsToUpper symbol)

/-- The declarative symbol pattern of the spec: 2–10 uppercase letters
immediately followed by the fixed quote-currency suffix `USDT`. -/
def symbolPattern (cs : List Char) : Prop :=
  ∃ pre, cs = pre ++ usdtSuffix ∧ 2 ≤ pre.length ∧ pre.length ≤ 10 ∧
    ∀ c ∈ pre, 'A' ≤ c ∧ c ≤ 'Z'

/-- `CHART_CONFIG.defaultLimit` (constants.ts line 33). -/
def defaultLimit : ℕ := 500

/-- `INTERVAL_MAX_LIMITS` (constants.ts lines 66–82): the fixed
interval → max-bars table. -/
def INTERVAL_MAX_LIMITS : List (String × ℕ) :=
  [("1m", 1000), ("3m", 1000), ("5m", 1000), ("15m", 1000), ("30m", 1000),
   ("1h", 1000), ("2h", 1000), ("4h", 1000), ("6h", 1000), ("8h", 1000),
   ("12h", 1000), ("1d", 1000), ("3d", 1000), ("1w", 1000), ("1M", 1000)]

/-- `getMaxLimitForInterval` (constants.ts lines 89–91):
`INTERVAL_MAX_LIMITS[interval] || CHART_CONFIG.defaultLimit` — a missing
key, or a falsy (zero) table value, yields the default. -/
def getMaxLimitForInterval (interval : String) : ℕ :=
  match INTERVAL_MAX_LIMITS.lookup interval with
  | some v => if v = 0 then defaultLimit else v
  | none => defaultLimit

/-- `calculatedLimit` (useBinanceData.ts line 39 and line 141):
`limit ?? getMaxLimitForInterval(interval)` — the nullish coalescing
keeps any supplied limit (including 0) unchanged. -/
def calculatedLimit (limit : Option ℕ) (interval : String) : ℕ :=
  limit.getD (getMaxLimitForInterval interval)

/-- Observable steps of the historical fetch path. -/
inductive FetchEvent where
  | validationError
  | networkRequest (symbol : List Char) (interval : String) (limit : ℕ)
  deriving DecidableEq, Repr

/-- The control flow of `performFetch` (useBinanceData.ts lines 117–143)
up to its first network request: the symbol is validated first and a
failure returns with a validation error before `fetchKlines` is reached;
otherwise `fetchKlines` (binance.ts lines 55–67) issues one request with
the uppercased symbol, the interval and the calculated limit. -/
def performFetchEvents (symbol : String) (interval : String) (limit : ℕ) :
    List FetchEvent :=
  if validateSymbol symbol then
    [.networkRequest (jsToUpper symbol) interval limit]
  else
    [.validationError]

/-- The half-open integer interval `[lo, hi)` as a list, used to model
the index ranges of the source `for` loops. -/
def intRange (lo hi : ℤ) : List ℤ :=
  (List.range (hi - lo).toNat).map (fun k : ℕ => (lo + k : ℤ))

/-- Indices of `data` read by `calculateMA` on an array of length `N`
with period `P` (indicators.ts lines 16–30): nothing when the guard
`N < P` fires; otherwise, for each `i ∈ [P-1, N)`, the inner loop reads
`data[j]` for `j ∈ [i-P+1, i]` and then `data[i].time` is read. -/
def maReadIdx (N P : ℤ) : List ℤ :=
  if N < P then []
  else (intRange (P - 1) N).flatMap (fun i => intRange (i - P + 1) (i + 1) ++ [i])

/-- Indices of `data` read by `calculateEMA` (indicators.ts lines
43–66): guard `N < P`; seed loop reads `data[i]` for `i ∈ [0, P)`, then
`data[P-1].time`; the tail loop reads `data[i]` twice for `i ∈ [P, N)`. -/
def emaReadIdx (N P : ℤ) : List ℤ :=
  if N < P then []
  else intRange 0 P ++ [P - 1] ++ (intRange P N).flatMap (fun i => [i, i])

/-- Indices of `data` read by `calculateRSI` (indicators.ts lines
75–137): guard `N < P+1`; the changes loop reads `data[i]` and
`data[i-1]` for `i ∈ [1, N)`; then `data[P].time`; the Wilder loop reads
`data[i+1].time` for `i ∈ [P, N-1)`. -/
def rsiDataIdx (N P : ℤ) : List ℤ :=
  if N < P + 1 then []
  else (intRange 1 N).flatMap (fun i => [i, i - 1]) ++ [P] ++
    (intRange P (N - 1)).map (fun i => i + 1)

/-- Indices of the length-`N-1` `changes` array read by `calculateRSI`
(indicators.ts lines 89–95 and 116–122): the seed loop reads
`changes[i]` for `i ∈ [0, P)`, the Wilder loop for `i ∈ [P, N-1)`. -/
def rsiChangesIdx (N P : ℤ) : List ℤ :=
  if N < P + 1 then []
  else intRange 0 P ++ intRange P (N - 1)

/-- Concrete candle at time 100 (witness data). -/
def kA : Kline := ⟨100, 1, 2, 1, 1, 5⟩

/-- Concrete candle at time 200 (witness data). -/
def kB : Kline := ⟨200, 1, 3, 1, 2, 6⟩

/-- Concrete candle at time 300 (witness data). -/
def kC : Kline := ⟨300, 2, 4, 2, 3, 7⟩

/-- A fresher candle sharing time 100 with `kA` (witness data). -/
def kA2 : Kline := ⟨100, 1, 5, 1, 4, 9⟩

/-- A three-candle series with non-decreasing closes (witness data). -/
def dataW : List Kline := [kA, kB, kC]

/-- C7: for every period `P ≥ 1` and every candle series shorter than
`P`, all three indicator calculators return the empty series (the RSI
guard `N < P + 1` is implied by `N < P`). -/
theorem indicators_empty_when_short (data : List Kline) (P : ℕ)
    (hP : 1 ≤ P) (hN : data.length < P) :
    calculateMA data P = [] ∧ calculateEMA data P = [] ∧
      calculateRSI data P = [] := by
  refine ⟨?_, ?_, ?_⟩
  · simp [calculateMA, hN]
  · simp [calculateEMA, hN]
  · simp [calculateRSI, Nat.lt_succ_of_lt hN]

/-- Witness for C7 at the one-candle series and period 2. -/
theorem indicators_empty_when_short_witness :
    calculateMA [kA] 2 = [] ∧ calculateEMA [kA] 2 = [] ∧
      calculateRSI [kA] 2 = [] :=
  indicators_empty_when_short [kA] 2 (by decide) (by decide)

/-- C9: dispatch on an indicator kind other than MA, EMA and RSI (the
`default:` arm of `calculateIndicator`, reached by MACD and BB) returns
the empty series; the function is total, so it cannot throw. -/
theorem calculateIndicator_unknown_empty (data : List Kline)
    (config : IndicatorConfig) (h1 : config.type ≠ .MA)
    (h2 : config.type ≠ .EMA) (h3 : config.type ≠ .RSI) :
    calculateIndicator data config = [] := by
  rcases config with ⟨t, p⟩
  cases t <;> simp_all [calculateIndicator]

/-- Witness for C9 at a MACD config. -/
theorem calculateIndicator_unknown_empty_witness :
    calculateIndicator dataW ⟨.MACD, 26⟩ = [] :=
  calculateIndicator_unknown_empty dataW ⟨.MACD, 26⟩ (by decide) (by decide)
    (by decide)

/-- C4 counterexample: a caller-supplied limit is not clamped — with
interval `1m` (table maximum 1000) and supplied limit 2000, the limit
actually used is 2000, exceeding the per-interval maximum. -/
theorem calculatedLimit_not_clamped :
    getMaxLimitForInterval "1m" < calculatedLimit (some 2000) "1m" := by
  decide

/-- C4 (amended): when no limit is supplied, the limit used is exactly
the per-interval table value; a supplied limit is used unchanged (no
clamping), and can therefore exceed the per-interval maximum. -/
theorem calculatedLimit_spec :
    (∀ interval, calculatedLimit none interval = getMaxLimitForInterval interval) ∧
    (∀ l interval, calculatedLimit (some l) interval = l) ∧
    (∃ l interval, getMaxLimitForInterval interval < calculatedLimit (some l) interval) :=
  ⟨fun _ => rfl, fun _ _ => rfl, ⟨2000, "1m", by decide⟩⟩

/-- The executable regex matcher agrees with the declarative symbol
pattern: a character list is accepted by `/^[A-Z]{2,10}USDT$/` exactly
when it is 2–10 uppercase letters followed by `USDT` (the anchored
pattern forces the split at position `length - 4`). -/
theorem symbolPattern_iff_accept (cs : List Char) :
    symbolPattern cs ↔ symbolRegexAccept cs = true := by
  constructor
  · rintro ⟨pre, rfl, h2, h10, hup⟩
    have hlen : (pre ++ usdtSuffix).length = pre.length + 4 := by
      simp [usdtSuffix]
    simp only [symbolRegexAccept, Bool.and_eq_true, decide_eq_true_eq,
      List.all_eq_true, hlen]
    have h4 : pre.length + 4 - 4 = pre.length := by omega
    refine ⟨⟨⟨by omega, by omega⟩, ?_⟩, ?_⟩
    · rw [h4, List.drop_left]
    · rw [h4, List.take_left]
      intro c hc
      simp only [isUpperAZ, Bool.and_eq_true, decide_eq_true_eq]
      exact hup c hc
  · intro h
    simp only [symbolRegexAccept, Bool.and_eq_true, decide_eq_true_eq,
      List.all_eq_true] at h
    obtain ⟨⟨⟨h6, h14⟩, hdrop⟩, hall⟩ := h
    refine ⟨cs.take (cs.length - 4), ?_, ?_, ?_, ?_⟩
    · conv_lhs => rw [← List.take_append_drop (cs.length - 4) cs]
      rw [hdrop]
    · rw [List.length_take]; omega
    · rw [List.length_take]; omega
    · intro c hc
      have hc' := hall c hc
      simpa only [isUpperAZ, Bool.and_eq_true, decide_eq_true_eq] using hc'

/-- C8: `validateSymbol` returns `true` exactly when the uppercased
symbol is 2–10 uppercase letters immediately followed by `USDT`; the
concrete examples behave as the spec lists them. -/
theorem validateSymbol_spec :
    (∀ s, validateSymbol s = true ↔ symbolPattern (jsToUpper s)) ∧
    validateSymbol "BTCUSDT" = true ∧ validateSymbol "btcusdt" = true ∧
    validateSymbol "BTC" = false ∧
    validateSymbol "TOOLONGSYMBOLUSDT" = false ∧
    validateSymbol "BTC-USDT" = false := by
  refine ⟨fun s => ?_, by decide, by decide, by decide, by decide, by decide⟩
  rw [validateSymbol]
  exact (symbolPattern_iff_accept _).symm

/-- C3: when the uppercased symbol does not match the 2–10 uppercase
letters + `USDT` pattern, the fetch path fails with a validation error
and issues no network request. -/
theorem performFetch_invalid_symbol (s interval : String) (lim : ℕ)
    (h : ¬ symbolPattern (jsToUpper s)) :
    performFetchEvents s interval lim = [FetchEvent.validationError] ∧
    ∀ sy i l, FetchEvent.networkRequest sy i l ∉ performFetchEvents s interval lim := by
  have hv : validateSymbol s = false := by
    rw [validateSymbol]
    cases hA : symbolRegexAccept (jsToUpper s)
    · rfl
    · exact absurd ((symbolPattern_iff_accept _).mpr hA) h
  constructor
  · simp [performFetchEvents, hv]
  · intro sy i l
    simp [performFetchEvents, hv]

/-- Witness for C3 at the invalid symbol `"BTC-USDT"`. -/
theorem performFetch_invalid_symbol_witness :
    performFetchEvents "BTC-USDT" "1m" 1000 = [FetchEvent.validationError] :=
  (performFetch_invalid_symbol "BTC-USDT" "1m" 1000
    (fun hp => absurd ((symbolPattern_iff_accept _).mp hp) (by decide))).1

/-- C1: the streaming reconciler.  When the series has a last element
sharing the inbound candle's time, the result has unchanged length, the
same elements at every earlier position, and the inbound candle as its
last element.  Otherwise (empty series or different time) the result is
a suffix of `S ++ [c]` of length `min (|S| + 1) M` — the `min (|S|+1) M`
most recently appended candles in original order (for `M ≥ 1`, so after
appending beyond `M` the length is exactly `M`). -/
theorem reconcileKline_spec (S : List Kline) (c : Kline) (M : ℕ)
    (hM : 1 ≤ M) :
    (∀ last, S.getLast? = some last → last.time = c.time →
       (reconcileKline S c M).length = S.length ∧
       (reconcileKline S c M).getLast? = some c ∧
       ∀ i, i + 1 < S.length →
         (reconcileKline S c M).getD i default = S.getD i default) ∧
    (S.getLast?.map Kline.time ≠ some c.time →
       reconcileKline S c M <:+ S ++ [c] ∧
       (reconcileKline S c M).length = min (S.length + 1) M) := by
  constructor
  · intro last hlast htime
    have hcond : S.getLast?.map Kline.time = some c.time := by
      rw [hlast, Option.map_some']
      exact congrArg some htime
    have hS : S ≠ [] := by
      intro h
      rw [h] at hlast
      exact Option.noConfusion hlast
    have hpos : 0 < S.length := List.length_pos.mpr hS
    rw [reconcileKline, if_pos hcond]
    refine ⟨?_, List.getLast?_concat _, ?_⟩
    · rw [List.length_append, List.length_dropLast]
      simp only [List.length_singleton]
      omega
    · intro i hi
      rw [List.getD_eq_getElem?_getD, List.getD_eq_getElem?_getD,
        List.getElem?_append, List.dropLast_eq_take]
      have hlt : i < (List.take (S.length - 1) S).length := by
        rw [List.length_take]
        omega
      rw [if_pos hlt, List.getElem?_take, if_pos (by omega : i < S.length - 1)]
  · intro hcond
    rw [reconcileKline, if_neg hcond, jsSliceLast,
      if_neg (by omega : ¬ M = 0)]
    constructor
    · exact List.drop_suffix _ _
    · rw [List.length_drop, List.length_append, List.length_singleton]
      omega

/-- Witness for C1: replacing the still-forming bar in `[kA]` by `kA2`
(same time 100) keeps length 1 and ends with `kA2`. -/
theorem reconcileKline_spec_witness :
    (reconcileKline [kA] kA2 5).length = [kA].length ∧
    (reconcileKline [kA] kA2 5).getLast? = some kA2 :=
  ⟨((reconcileKline_spec [kA] kA2 5 (by decide)).1 kA (by decide)
      (by decide)).1,
   ((reconcileKline_spec [kA] kA2 5 (by decide)).1 kA (by decide)
      (by decide)).2.1⟩

/-- The sum of a `P`-window of a list starting at `k`, expressed as an
indexed sum, provided the window is in bounds. -/
theorem sum_window (f : Kline → ℚ) (l : List Kline) (k P : ℕ)
    (h : k + P ≤ l.length) :
    (((l.drop k).take P).map f).sum =
      ∑ j ∈ Finset.range P, f (l.getD (k + j) default) := by
  induction P generalizing k with
  | zero => simp
  | succ P ih =>
    have hk : k < l.length := by omega
    rw [List.drop_eq_getElem_cons hk, List.take_succ_cons, List.map_cons,
      List.sum_cons, ih (k + 1) (by omega), Finset.sum_range_succ', add_comm]
    congr 1
    · exact Finset.sum_congr rfl
        (fun j _ => by rw [show k + 1 + j = k + (j + 1) by omega])
    · rw [Nat.add_zero, List.getD_eq_getElem l default hk]

/-- C2: for `1 ≤ P ≤ N`, `calculateMA` outputs `N - P + 1` points; the
`k`-th point carries the time of candle `k + P - 1` and the arithmetic
mean of the closes of candles `k … k + P - 1`. -/
theorem calculateMA_spec (data : List Kline) (P : ℕ) (hP : 1 ≤ P)
    (hPN : P ≤ data.length) :
    (calculateMA data P).length = data.length - P + 1 ∧
    ∀ k, k < data.length - P + 1 →
      ((calculateMA data P).getD k default).time =
        (data.getD (k + P - 1) default).time ∧
      ((calculateMA data P).getD k default).value =
        (∑ j ∈ Finset.range P, (data.getD (k + j) default).close) / P := by
  have hguard : ¬ data.length < P := by omega
  simp only [calculateMA, if_neg hguard]
  constructor
  · rw [List.length_map, List.length_range]
    omega
  · intro k hk
    have hk' : k < data.length + 1 - P := by omega
    rw [List.getD_eq_getElem?_getD, List.getElem?_map,
      List.getElem?_range hk', Option.map_some', Option.getD_some]
    refine ⟨rfl, ?_⟩
    rw [sum_window Kline.close data k P (by omega)]

/-- Witness for C2 at the three-candle series and period 2. -/
theorem calculateMA_spec_witness :
    (calculateMA dataW 2).length = dataW.length - 2 + 1 ∧
    ((calculateMA dataW 2).getD 0 default).value =
      (∑ j ∈ Finset.range 2, (dataW.getD (0 + j) default).close) / 2 :=
  ⟨(calculateMA_spec dataW 2 (by decide) (by decide)).1,
   ((calculateMA_spec dataW 2 (by decide) (by decide)).2 0 (by decide)).2⟩

/-- `emaLoop` emits exactly one point per remaining candle. -/
theorem emaLoop_length (m : ℚ) (f : Kline → ℚ) (rest : List Kline) (e : ℚ) :
    (emaLoop m f rest e).length = rest.length := by
  induction rest generalizing e with
  | nil => rfl
  | cons r rs ih => simp [emaLoop, ih]

/-- First point of `emaLoop` on a non-empty remainder: the recurrence
applied to the seed. -/
theorem emaLoop_zero (m : ℚ) (f : Kline → ℚ) (r : Kline) (rs : List Kline)
    (e : ℚ) :
    (emaLoop m f (r :: rs) e).getD 0 default =
      ⟨r.time, (f r - e) * m + e⟩ := rfl

/-- Each later point of `emaLoop` applies the recurrence to the
previously emitted value, and carries the matching candle's time. -/
theorem emaLoop_succ (m : ℚ) (f : Kline → ℚ) (rest : List Kline) (e : ℚ)
    (k : ℕ) (hk : k + 1 < rest.length) :
    ((emaLoop m f rest e).getD (k + 1) default).time =
      (rest.getD (k + 1) default).time ∧
    ((emaLoop m f rest e).getD (k + 1) default).value =
      (f (rest.getD (k + 1) default) -
          ((emaLoop m f rest e).getD k default).value) * m +
        ((emaLoop m f rest e).getD k default).value := by
  induction rest generalizing e k with
  | nil => simp at hk
  | cons r rs ih =>
    cases k with
    | zero =>
      cases rs with
      | nil => simp at hk
      | cons r2 rs' => exact ⟨rfl, rfl⟩
    | succ j =>
      have hk' : j + 1 < rs.length := by
        simp only [List.length_cons] at hk
        omega
      have h := ih ((f r - e) * m + e) j hk'
      simpa only [emaLoop, List.getD_cons_succ] using h

/-- `List.getD` through `List.drop`. -/
theorem getD_drop (l : List Kline) (n i : ℕ) :
    (l.drop n).getD i default = l.getD (n + i) default := by
  rw [List.getD_eq_getElem?_getD, List.getD_eq_getElem?_getD,
    List.getElem?_drop]

/-- C6: for `1 ≤ P ≤ N`, `calculateEMA` outputs `N - P + 1` points; the
first point sits at candle `P-1` and carries the simple average of the
first `P` closes; every later point `k` sits at candle `P-1+k` and its
value is `(close - prevEMA) * (2/(P+1)) + prevEMA` for the previously
emitted value `prevEMA`. -/
theorem calculateEMA_spec (data : List Kline) (P : ℕ) (hP : 1 ≤ P)
    (hPN : P ≤ data.length) :
    (calculateEMA data P).length = data.length - P + 1 ∧
    ((calculateEMA data P).getD 0 default).time =
      (data.getD (P - 1) default).time ∧
    ((calculateEMA data P).getD 0 default).value =
      (∑ j ∈ Finset.range P, (data.getD j default).close) / P ∧
    ∀ k, 1 ≤ k → k ≤ data.length - P →
      ((calculateEMA data P).getD k default).time =
        (data.getD (P - 1 + k) default).time ∧
      ((calculateEMA data P).getD k default).value =
        ((data.getD (P - 1 + k) default).close -
            ((calculateEMA data P).getD (k - 1) default).value) *
          (2 / ((P : ℚ) + 1)) +
          ((calculateEMA data P).getD (k - 1) default).value := by
  have hguard : ¬ data.length < P := by omega
  simp only [calculateEMA, if_neg hguard]
  refine ⟨?_, rfl, ?_, ?_⟩
  · rw [List.length_cons, emaLoop_length, List.length_drop]
  · show (((data.take P).map Kline.close).sum / (P : ℚ)) = _
    have h := sum_window Kline.close data 0 P (by omega)
    rw [List.drop_zero] at h
    simp only [zero_add] at h
    rw [h]
  · intro k hk1 hk2
    obtain ⟨j, rfl⟩ : ∃ j, k = j + 1 := ⟨k - 1, by omega⟩
    have hrestlen : (data.drop P).length = data.length - P := List.length_drop P data
    simp only [List.getD_cons_succ, Nat.add_sub_cancel]
    cases j with
    | zero =>
      obtain ⟨r, rs, hr⟩ : ∃ r rs, data.drop P = r :: rs := by
        cases hd : data.drop P with
        | nil =>
          rw [hd] at hrestlen
          simp at hrestlen
          omega
        | cons r rs => exact ⟨r, rs, rfl⟩
      have hdr : data.getD (P - 1 + 1) default = r := by
        rw [show P - 1 + 1 = P + 0 by omega, ← getD_drop, hr]
        rfl
      rw [hr, emaLoop_zero, hdr]
      exact ⟨rfl, rfl⟩
    | succ i =>
      have hbound : i + 1 < (data.drop P).length := by omega
      have h := emaLoop_succ (2 / ((P : ℚ) + 1)) Kline.close (data.drop P)
        (((data.take P).map Kline.close).sum / (P : ℚ)) i hbound
      rw [getD_drop] at h
      rw [show P - 1 + (i + 1 + 1) = P + (i + 1) by omega]
      exact h

/-- Witness for C6 at the three-candle series and period 2. -/
theorem calculateEMA_spec_witness :
    (calculateEMA dataW 2).length = dataW.length - 2 + 1 ∧
    ((calculateEMA dataW 2).getD 0 default).value =
      (∑ j ∈ Finset.range 2, (dataW.getD j default).close) / 2 :=
  ⟨(calculateEMA_spec dataW 2 (by decide) (by decide)).1,
   (calculateEMA_spec dataW 2 (by decide) (by decide)).2.2.1⟩

/-- On a series with non-decreasing closes, every close-to-close delta
is non-negative. -/
theorem changesOf_nonneg (data : List Kline) :
    List.Chain' (fun a b => a.close ≤ b.close) data →
    ∀ c ∈ changesOf data, 0 ≤ c := by
  induction data with
  | nil =>
    intro _ c hc
    simp [changesOf] at hc
  | cons a rest ih =>
    intro h c hc
    cases rest with
    | nil => simp [changesOf] at hc
    | cons b rs =>
      rw [changesOf] at hc
      rcases List.mem_cons.mp hc with rfl | hmem
      · exact sub_nonneg.mpr (List.chain'_cons.mp h).1
      · exact ih (List.chain'_cons.mp h).2 c hmem

/-- The seed loss accumulator is zero when every change is
non-negative. -/
theorem seedLoss_eq_zero (cs : List ℚ) (h : ∀ c ∈ cs, 0 ≤ c) :
    seedLoss cs = 0 := by
  induction cs with
  | nil => rfl
  | cons c rest ih =>
    have hc := h c (List.mem_cons_self c rest)
    have hrest := ih (fun x hx => h x (List.mem_cons_of_mem c hx))
    rw [seedLoss, List.map_cons, List.sum_cons]
    rw [seedLoss] at hrest
    rw [hrest, add_zero]
    by_cases h0 : 0 < c
    · rw [if_pos h0]
    · rw [if_neg h0, abs_of_nonneg hc]
      exact le_antisymm (not_lt.mp h0) hc

/-- The Wilder-smoothing loop keeps the smoothed loss at zero when every
remaining change is non-negative, so every emitted value is 100. -/
theorem rsiLoop_value_100 (p : ℚ) (pairs : List (ℚ × ℤ)) (g : ℚ)
    (h : ∀ pr ∈ pairs, 0 ≤ pr.1) :
    ∀ pt ∈ rsiLoop p pairs g 0, pt.value = 100 := by
  induction pairs generalizing g with
  | nil =>
    intro pt hpt
    simp [rsiLoop] at hpt
  | cons pr rest ih =>
    obtain ⟨c, t⟩ := pr
    intro pt hpt
    have hc : (0 : ℚ) ≤ c := h (c, t) (List.mem_cons_self _ _)
    simp only [rsiLoop] at hpt
    have hl' : ((0 : ℚ) * (p - 1) + (if c < 0 then |c| else 0)) / p = 0 := by
      rw [if_neg (not_lt.mpr hc)]
      simp
    rw [hl'] at hpt
    rcases List.mem_cons.mp hpt with rfl | hmem
    · simp [rsiValue]
    · exact ih _ (fun x hx => h x (List.mem_cons_of_mem _ hx)) pt hmem

/-- C5: for `P ≥ 1` and a series of length `> P` whose closes are
monotonically non-decreasing, `calculateRSI` emits at least one point and
every emitted point has value exactly 100 (the smoothed loss stays 0
through the seed and every Wilder step). -/
theorem calculateRSI_mono_100 (data : List Kline) (P : ℕ) (hP : 1 ≤ P)
    (hN : P < data.length)
    (hmono : List.Chain' (fun a b => a.close ≤ b.close) data) :
    calculateRSI data P ≠ [] ∧
      ∀ pt ∈ calculateRSI data P, pt.value = 100 := by
  have hguard : ¬ data.length < P + 1 := by omega
  have hcs : ∀ c ∈ changesOf data, 0 ≤ c := changesOf_nonneg data hmono
  have hl : seedLoss ((changesOf data).take P) / (P : ℚ) = 0 := by
    rw [seedLoss_eq_zero _ (fun c hc => hcs c (List.mem_of_mem_take hc)),
      zero_div]
  simp only [calculateRSI, if_neg hguard]
  refine ⟨by simp, ?_⟩
  intro pt hpt
  rw [hl] at hpt
  rcases List.mem_cons.mp hpt with rfl | hmem
  · simp [rsiValue]
  · refine rsiLoop_value_100 (P : ℚ) _ _ ?_ pt hmem
    intro pr hpr
    obtain ⟨a, b⟩ := pr
    exact hcs a (List.mem_of_mem_drop (List.of_mem_zip hpr).1)

/-- Witness for C5 at the three-candle series (closes 1, 2, 3) and
period 1: both RSI points have value 100. -/
theorem calculateRSI_mono_100_witness :
    calculateRSI dataW 1 ≠ [] ∧
      ∀ pt ∈ calculateRSI dataW 1, pt.value = 100 :=
  calculateRSI_mono_100 dataW 1 (by decide) (by decide)
    (by norm_num [dataW, kA, kB, kC, List.chain'_cons, List.chain'_singleton])

/-- Membership in a half-open integer range. -/
theorem mem_intRange (x lo hi : ℤ) : x ∈ intRange lo hi ↔ lo ≤ x ∧ x < hi := by
  simp only [intRange, List.mem_map, List.mem_range]
  constructor
  · rintro ⟨k, hk, rfl⟩
    omega
  · rintro ⟨h1, h2⟩
    exact ⟨(x - lo).toNat, by omega, by omega⟩

/-- C10: for every period `P ≥ 1` the guards of `calculateMA`,
`calculateEMA` and `calculateRSI` keep every array index read by their
loops strictly within bounds (`data` has length `N`, the RSI `changes`
array has length `N - 1`), so each function is total on its inputs; for
`P = 0` this fails: `calculateMA` reads `data[-1]` (the time access of
its first iteration) on every array. -/
theorem indicators_index_safety (N P : ℤ) :
    (1 ≤ P →
      (∀ x ∈ maReadIdx N P, 0 ≤ x ∧ x < N) ∧
      (∀ x ∈ emaReadIdx N P, 0 ≤ x ∧ x < N) ∧
      (∀ x ∈ rsiDataIdx N P, 0 ≤ x ∧ x < N) ∧
      (∀ x ∈ rsiChangesIdx N P, 0 ≤ x ∧ x < N - 1)) ∧
    (0 ≤ N → -1 ∈ maReadIdx N 0) := by
  constructor
  · intro hP
    refine ⟨?_, ?_, ?_, ?_⟩
    · intro x hx
      rw [maReadIdx] at hx
      by_cases hg : N < P
      · rw [if_pos hg] at hx
        simp at hx
      · rw [if_neg hg] at hx
        simp only [List.mem_flatMap, List.mem_append, List.mem_singleton,
          mem_intRange] at hx
        obtain ⟨i, ⟨hi1, hi2⟩, hx⟩ := hx
        rcases hx with ⟨h1, h2⟩ | rfl <;> omega
    · intro x hx
      rw [emaReadIdx] at hx
      by_cases hg : N < P
      · rw [if_pos hg] at hx
        simp at hx
      · rw [if_neg hg] at hx
        simp only [List.mem_append, List.mem_flatMap, List.mem_singleton,
          List.mem_cons, mem_intRange, List.not_mem_nil, or_false] at hx
        rcases hx with (⟨h1, h2⟩ | rfl) | ⟨i, ⟨hi1, hi2⟩, rfl | rfl⟩ <;> omega
    · intro x hx
      rw [rsiDataIdx] at hx
      by_cases hg : N < P + 1
      · rw [if_pos hg] at hx
        simp at hx
      · rw [if_neg hg] at hx
        simp only [List.mem_append, List.mem_flatMap, List.mem_map,
          List.mem_singleton, List.mem_cons, mem_intRange, List.not_mem_nil,
          or_false] at hx
        rcases hx with (⟨i, ⟨hi1, hi2⟩, rfl | rfl⟩ | rfl) | ⟨i, ⟨hi1, hi2⟩, rfl⟩ <;>
          omega
    · intro x hx
      rw [rsiChangesIdx] at hx
      by_cases hg : N < P + 1
      · rw [if_pos hg] at hx
        simp at hx
      · rw [if_neg hg] at hx
        simp only [List.mem_append, mem_intRange] at hx
        rcases hx with ⟨h1, h2⟩ | ⟨h1, h2⟩ <;> omega
  · intro hN
    rw [maReadIdx, if_neg (by omega : ¬ N < 0)]
    simp only [List.mem_flatMap]
    refine ⟨-1, ?_, ?_⟩
    · rw [mem_intRange]
      omega
    · simp

/-- Witness for C10 at `N = 5`: all `calculateMA` reads with period 2
are in `[0, 5)`, and with period 0 the out-of-bounds index `-1` is
read. -/
theorem indicators_index_safety_witness :
    (∀ x ∈ maReadIdx 5 2, 0 ≤ x ∧ x < 5) ∧ -1 ∈ maReadIdx 5 0 :=
  ⟨((indicators_index_safety 5 2).1 (by decide)).1,
   (indicators_index_safety 5 0).2 (by decide)⟩
